import Mathlib

/-!
# Verification of a base64 encoder/decoder

Shallow embedding of the codec from `src/encode.rs`, `src/decode.rs` and the
shared constants / table lookup from `src/main.rs`.  Bytes are modelled as
`Nat` values; `u8` shifts that can overflow carry an explicit `% 256`.
Fallible decoding is modelled with `Except`.
-/

namespace Base64

/-- `const N: u8 = 64` from `src/main.rs`. -/
def N : Nat := 64

/-- `TABLE` from `src/main.rs`: the 64 base64 alphabet characters
`A-Z`, `a-z`, `0-9`, `+`, `/` as ASCII byte values. -/
def TABLE : List Nat :=
  [65, 66, 67, 68, 69, 70, 71, 72, 73, 74, 75, 76, 77, 78, 79, 80, 81, 82,
   83, 84, 85, 86, 87, 88, 89, 90,
   97, 98, 99, 100, 101, 102, 103, 104, 105, 106, 107, 108, 109, 110, 111,
   112, 113, 114, 115, 116, 117, 118, 119, 120, 121, 122,
   48, 49, 50, 51, 52, 53, 54, 55, 56, 57,
   43, 47]

/-- `const PAD_CHAR: u8 = b'='` from `src/main.rs`. -/
def PAD_CHAR : Nat := 61

/-- `get_table_index` from `src/main.rs`.  The Rust code binary-searches the
sorted slices `TABLE[0..52]` and `TABLE[52..62]`; since the entries are
distinct, `binary_search` returns the unique position of the element, which
is modelled here by `List.findIdx?`. -/
def get_table_index (input_char : Nat) : Option Nat :=
  if 65 ≤ input_char ∧ input_char ≤ 122 then
    (TABLE.take 52).findIdx? (fun x => x = input_char)
  else if 48 ≤ input_char ∧ input_char ≤ 57 then
    (((TABLE.drop 52).take 10).findIdx? (fun x => x = input_char)).map
      (fun i => i + 52)
  else if input_char = 43 then some (N - 2)
  else if input_char = 47 then some (N - 1)
  else none

/-- `encode_3_bytes` from `src/encode.rs`: encode up to 3 bytes into 4
base64 indices.  A `u8` left shift discards overflowing bits, hence the
`% 256`; `mask_6_bit` is `63`. -/
def encode_3_bytes (input_slice : List Nat) : List Nat :=
  match input_slice.take 3 with
  | [b0, b1, b2] =>
    [b0 >>> 2,
     (((b0 <<< 4) % 256) &&& 63) ||| (b1 >>> 4),
     (((b1 <<< 2) % 256) &&& 63) ||| (b2 >>> 6),
     b2 &&& 63]
  | [b0, b1] =>
    [b0 >>> 2,
     (((b0 <<< 4) % 256) &&& 63) ||| (b1 >>> 4),
     ((b1 <<< 2) % 256) &&& 63,
     N]
  | [b0] =>
    [b0 >>> 2,
     ((b0 <<< 4) % 256) &&& 63,
     N, N]
  | _ => [N, N, N, N]

/-- Rust's `slice::as_chunks::<3>`: the list of full 3-element chunks
together with the remainder (of length `< 3`). -/
def as_chunks_3 : List Nat → List (List Nat) × List Nat
  | a :: b :: c :: rest =>
    let p := as_chunks_3 rest
    ([a, b, c] :: p.1, p.2)
  | l => ([], l)

/-- The table substitution at the end of `encode_bytes` (`src/encode.rs`):
`*TABLE.get(i).unwrap_or(&PAD_CHAR)` — out-of-range indices (the value `N`)
become the padding character. -/
def to_char (i : Nat) : Nat := TABLE.getD i PAD_CHAR

/-- `encode_bytes` from `src/encode.rs`: concatenate the per-chunk index
groups (the final partial chunk, if any, also contributes a 4-index group)
and map every index through the table. -/
def encode_bytes (input_bytes : List Nat) : List Nat :=
  let p := as_chunks_3 input_bytes
  let index_bytes :=
    (p.1.map encode_3_bytes).flatten ++
      (if p.2.isEmpty then [] else encode_3_bytes p.2)
  index_bytes.map to_char

/-- `DecodeError` from `src/decode.rs`. -/
inductive DecodeError
  | InputLength
  | WrongPadding
  | InvalidByte (b : Nat)
deriving DecidableEq, Repr

/-- The trimming loop at the top of `decode_bytes` (`src/decode.rs`):
remove all trailing `PAD_CHAR` bytes. -/
def trim_trailing_padding (input_bytes : List Nat) : List Nat :=
  (input_bytes.reverse.dropWhile (fun b => b = PAD_CHAR)).reverse

/-- The `get_index` closure of `decode_bytes` (`src/decode.rs`): table index
or `InvalidByte` error. -/
def get_index (b : Nat) : Except DecodeError Nat :=
  match get_table_index b with
  | some i => Except.ok i
  | none => Except.error (DecodeError.InvalidByte b)

/-- The body of the per-chunk decode in `decode_bytes` (`src/decode.rs`):
translate the four characters (the source queries `get_index` left to
right, re-querying middle characters; the duplicate queries of an already
successful lookup are collapsed here) and repack into three bytes.
`u8` left shifts discard overflowing bits, hence the `% 256`. -/
def decode_chunk (c0 c1 c2 c3 : Nat) : Except DecodeError (List Nat) := do
  let i0 ← get_index c0
  let i1 ← get_index c1
  let i2 ← get_index c2
  let i3 ← get_index c3
  Except.ok [((i0 <<< 2) % 256) ||| (i1 >>> 4),
             ((i1 <<< 4) % 256) ||| (i2 >>> 2),
             ((i2 <<< 6) % 256) ||| i3]

/-- The chunk loop of `decode_bytes` (`src/decode.rs`): for each 4-byte
chunk in order, first reject chunks containing the padding character, then
translate and repack.  `as_chunks_4` only ever produces 4-element chunks, so
the default arm is unreachable. -/
def decode_chunks : List (List Nat) → Except DecodeError (List Nat)
  | [] => Except.ok []
  | c :: rest =>
    if PAD_CHAR ∈ c then Except.error DecodeError.WrongPadding
    else
      match c with
      | [c0, c1, c2, c3] => do
        let b ← decode_chunk c0 c1 c2 c3
        let r ← decode_chunks rest
        Except.ok (b ++ r)
      | _ => Except.ok []

/-- The remainder processing of `decode_bytes` (`src/decode.rs`).  The
length-1 arm returns `InputLength` (unreachable: the caller already
returned); lengths `≥ 4` cannot come out of `as_chunks_4`. -/
def decode_remainder : List Nat → Except DecodeError (List Nat)
  | [] => Except.ok []
  | [_] => Except.error DecodeError.InputLength
  | [r0, r1] => do
    let i0 ← get_index r0
    let i1 ← get_index r1
    Except.ok [((i0 <<< 2) % 256) ||| (i1 >>> 4)]
  | [r0, r1, r2] => do
    let i0 ← get_index r0
    let i1 ← get_index r1
    let i2 ← get_index r2
    Except.ok [((i0 <<< 2) % 256) ||| (i1 >>> 4),
               ((i1 <<< 4) % 256) ||| (i2 >>> 2)]
  | _ => Except.ok []

/-- Rust's `slice::as_chunks::<4>`: full 4-element chunks plus remainder. -/
def as_chunks_4 : List Nat → List (List Nat) × List Nat
  | a :: b :: c :: d :: rest =>
    let p := as_chunks_4 rest
    ([a, b, c, d] :: p.1, p.2)
  | l => ([], l)

/-- Decoding after the early length/padding checks: the chunk loop followed
by the remainder, outputs concatenated (`src/decode.rs` writes both into one
output buffer). -/
def decode_core (chunks : List (List Nat)) (remainder : List Nat) :
    Except DecodeError (List Nat) := do
  let body ← decode_chunks chunks
  let tail ← decode_remainder remainder
  Except.ok (body ++ tail)

/-- `decode_bytes` from `src/decode.rs`: trim trailing padding, chunk, run
the early output-length checks (`InputLength` for a remainder of 1,
`WrongPadding` for insufficient trailing padding), then decode.  The source
`match` arms `0` and the unreachable `_` both proceed to the main loop. -/
def decode_bytes (input_bytes : List Nat) : Except DecodeError (List Nat) :=
  let core := trim_trailing_padding input_bytes
  let trailing_len := input_bytes.length - core.length
  let p := as_chunks_4 core
  match p.2.length with
  | 1 => Except.error DecodeError.InputLength
  | 2 =>
    if trailing_len < 2 then Except.error DecodeError.WrongPadding
    else decode_core p.1 p.2
  | 3 =>
    if trailing_len < 1 then Except.error DecodeError.WrongPadding
    else decode_core p.1 p.2
  | _ => decode_core p.1 p.2

/-- Continuation byte check `80..=BF` (Rust `run_utf8_validation`). -/
def utf8_cont (b : Nat) : Bool := decide (128 ≤ b ∧ b ≤ 191)

/-- Lead-specific valid range for the second byte of a 3- or 4-byte
sequence (Rust `run_utf8_validation`): `E0` requires `A0..=BF` (excludes
overlong forms), `ED` requires `80..=9F` (excludes UTF-16 surrogates),
`F0` requires `90..=BF` (excludes overlong forms), `F4` requires `80..=8F`
(excludes code points above `U+10FFFF`); every other lead `80..=BF`. -/
def utf8_second_ok (b b1 : Nat) : Bool :=
  if b = 224 then decide (160 ≤ b1 ∧ b1 ≤ 191)
  else if b = 237 then decide (128 ≤ b1 ∧ b1 ≤ 159)
  else if b = 240 then decide (144 ≤ b1 ∧ b1 ≤ 191)
  else if b = 244 then decide (128 ≤ b1 ∧ b1 ≤ 143)
  else decide (128 ≤ b1 ∧ b1 ≤ 191)

/-- Modelled from the spec: Rust's `String::from_utf8_lossy` (standard
library, not part of `src/`), the lossy UTF-8 interpretation layered above
the byte decoder — it "substitutes the replacement character for any
invalid byte sequence rather than failing".  Bytes in, Unicode scalar
values out.  Valid leads are `00..=7F`, `C2..=DF`, `E0..=EF`, `F0..=F4`;
second bytes must satisfy `utf8_second_ok` (rejecting overlong, surrogate
and out-of-range forms) and later bytes must be continuations.  Following
Rust's maximal-subpart substitution: an invalid or misplaced byte yields
one `U+FFFD` (`65533`) replacing the bytes validated so far (one for a bad
lead, the lead and any good continuations when a later byte fails the
check), and a sequence truncated by the end of input yields a single
`U+FFFD`. -/
def from_utf8_lossy : List Nat → List Nat
  | [] => []
  | [b] =>
    if b < 128 then [b] else [65533]
  | [b, b1] =>
    if b < 128 then b :: from_utf8_lossy [b1]
    else if 194 ≤ b ∧ b ≤ 223 then
      if utf8_cont b1 then [(b - 192) * 64 + (b1 - 128)]
      else 65533 :: from_utf8_lossy [b1]
    else if (224 ≤ b ∧ b ≤ 239) ∨ (240 ≤ b ∧ b ≤ 244) then
      if utf8_second_ok b b1 then [65533]
      else 65533 :: from_utf8_lossy [b1]
    else 65533 :: from_utf8_lossy [b1]
  | [b, b1, b2] =>
    if b < 128 then b :: from_utf8_lossy [b1, b2]
    else if 194 ≤ b ∧ b ≤ 223 then
      if utf8_cont b1 then
        ((b - 192) * 64 + (b1 - 128)) :: from_utf8_lossy [b2]
      else 65533 :: from_utf8_lossy [b1, b2]
    else if 224 ≤ b ∧ b ≤ 239 then
      if utf8_second_ok b b1 then
        if utf8_cont b2 then
          [(b - 224) * 4096 + (b1 - 128) * 64 + (b2 - 128)]
        else 65533 :: from_utf8_lossy [b2]
      else 65533 :: from_utf8_lossy [b1, b2]
    else if 240 ≤ b ∧ b ≤ 244 then
      if utf8_second_ok b b1 then
        if utf8_cont b2 then [65533]
        else 65533 :: from_utf8_lossy [b2]
      else 65533 :: from_utf8_lossy [b1, b2]
    else 65533 :: from_utf8_lossy [b1, b2]
  | b :: b1 :: b2 :: b3 :: rest =>
    if b < 128 then b :: from_utf8_lossy (b1 :: b2 :: b3 :: rest)
    else if 194 ≤ b ∧ b ≤ 223 then
      if utf8_cont b1 then
        ((b - 192) * 64 + (b1 - 128)) :: from_utf8_lossy (b2 :: b3 :: rest)
      else 65533 :: from_utf8_lossy (b1 :: b2 :: b3 :: rest)
    else if 224 ≤ b ∧ b ≤ 239 then
      if utf8_second_ok b b1 then
        if utf8_cont b2 then
          ((b - 224) * 4096 + (b1 - 128) * 64 + (b2 - 128)) ::
            from_utf8_lossy (b3 :: rest)
        else 65533 :: from_utf8_lossy (b2 :: b3 :: rest)
      else 65533 :: from_utf8_lossy (b1 :: b2 :: b3 :: rest)
    else if 240 ≤ b ∧ b ≤ 244 then
      if utf8_second_ok b b1 then
        if utf8_cont b2 then
          if utf8_cont b3 then
            ((b - 240) * 262144 + (b1 - 128) * 4096 + (b2 - 128) * 64 +
              (b3 - 128)) :: from_utf8_lossy rest
          else 65533 :: from_utf8_lossy (b3 :: rest)
        else 65533 :: from_utf8_lossy (b2 :: b3 :: rest)
      else 65533 :: from_utf8_lossy (b1 :: b2 :: b3 :: rest)
    else 65533 :: from_utf8_lossy (b1 :: b2 :: b3 :: rest)

/-- `decode_string` from `src/decode.rs`: byte-level decode, then the lossy
UTF-8 interpretation of the result. -/
def decode_string (input_string : List Nat) : Except DecodeError (List Nat) := do
  let output_bytes ← decode_bytes input_string
  Except.ok (from_utf8_lossy output_bytes)

/-! ## Bit-arithmetic lemmas -/

/-- Bitwise or of values with disjoint bit ranges is addition: if `a` is a
multiple of `2^k` and `b < 2^k` then `a ||| b = a + b`. -/
lemma lor_eq_add_of_lt (a b k : Nat) (ha : a % 2 ^ k = 0) (hb : b < 2 ^ k) :
    a ||| b = a + b := by
  induction k generalizing a b with
  | zero =>
    have hb0 : b = 0 := by omega
    subst hb0
    simp
  | succ k ih =>
    have hd : (2 : Nat) ∣ a := by
      refine dvd_trans ⟨2 ^ k, by ring⟩ (Nat.dvd_of_mod_eq_zero ha)
    have ha2 : a % 2 = 0 := by omega
    obtain ⟨q, hq⟩ := Nat.dvd_of_mod_eq_zero ha
    have hadiv : a / 2 % 2 ^ k = 0 := by
      have h2 : a = 2 * (2 ^ k * q) := by rw [hq]; ring
      rw [h2, Nat.mul_div_cancel_left _ (by norm_num)]
      exact Nat.mul_mod_right _ _
    have hbdiv : b / 2 < 2 ^ k := by
      have h2 : (2 : Nat) ^ (k + 1) = 2 * 2 ^ k := by ring
      rw [h2] at hb
      omega
    have hdiv : (a ||| b) / 2 = a / 2 ||| b / 2 := Nat.or_div_two
    have hmod : (a ||| b) % 2 = b % 2 := by
      have h1 := Nat.or_mod_two_eq_one (a := a) (b := b)
      rcases Nat.mod_two_eq_zero_or_one (a ||| b) with h' | h' <;>
        rcases Nat.mod_two_eq_zero_or_one b with h'' | h'' <;>
          simp [h', h'', ha2] at h1 ⊢
    have hih := ih (a / 2) (b / 2) hadiv hbdiv
    calc a ||| b = 2 * ((a ||| b) / 2) + (a ||| b) % 2 := by omega
      _ = 2 * (a / 2 + b / 2) + b % 2 := by rw [hdiv, hih, hmod]
      _ = a + b := by omega

lemma lor4 (a b : Nat) (ha : a % 4 = 0) (hb : b < 4) : a ||| b = a + b := by
  have h : (2 : Nat) ^ 2 = 4 := by norm_num
  exact lor_eq_add_of_lt a b 2 (by rw [h]; exact ha) (by rw [h]; exact hb)

lemma lor16 (a b : Nat) (ha : a % 16 = 0) (hb : b < 16) : a ||| b = a + b := by
  have h : (2 : Nat) ^ 4 = 16 := by norm_num
  exact lor_eq_add_of_lt a b 4 (by rw [h]; exact ha) (by rw [h]; exact hb)

lemma lor64 (a b : Nat) (ha : a % 64 = 0) (hb : b < 64) : a ||| b = a + b := by
  have h : (2 : Nat) ^ 6 = 64 := by norm_num
  exact lor_eq_add_of_lt a b 6 (by rw [h]; exact ha) (by rw [h]; exact hb)

lemma and63 (x : Nat) : x &&& 63 = x % 64 := by
  have h := Nat.and_pow_two_sub_one_eq_mod x 6
  norm_num at h
  exact h

lemma shr2 (x : Nat) : x >>> 2 = x / 4 := by
  rw [Nat.shiftRight_eq_div_pow]

lemma shr4 (x : Nat) : x >>> 4 = x / 16 := by
  rw [Nat.shiftRight_eq_div_pow]

lemma shr6 (x : Nat) : x >>> 6 = x / 64 := by
  rw [Nat.shiftRight_eq_div_pow]

lemma shl2 (x : Nat) : x <<< 2 = x * 4 := by
  rw [Nat.shiftLeft_eq]

lemma shl4 (x : Nat) : x <<< 4 = x * 16 := by
  rw [Nat.shiftLeft_eq]

lemma shl6 (x : Nat) : x <<< 6 = x * 64 := by
  rw [Nat.shiftLeft_eq]

/-! ## Alphabet table facts -/

/-- For every sextet `s < 64`, the table character is not the padding
character, is a byte, and translates back to `s`. -/
lemma tbl_spec : ∀ s, s < 64 →
    to_char s ≠ PAD_CHAR ∧ to_char s < 256 ∧
      get_table_index (to_char s) = some s := by decide

/-- Index `N = 64` falls outside the table and maps to the padding
character. -/
lemma tbl_pad : to_char N = PAD_CHAR := by decide

/-! ## Chunking lemmas -/

lemma as_chunks_3_flatten : ∀ l : List Nat,
    (as_chunks_3 l).1.flatten ++ (as_chunks_3 l).2 = l
  | [] => by simp [as_chunks_3]
  | [a] => by simp [as_chunks_3]
  | [a, b] => by simp [as_chunks_3]
  | a :: b :: c :: rest => by
    have ih := as_chunks_3_flatten rest
    simp [as_chunks_3, ih]

lemma as_chunks_3_shape : ∀ l : List Nat, ∀ c ∈ (as_chunks_3 l).1,
    ∃ x y z, c = [x, y, z]
  | [] => by simp [as_chunks_3]
  | [a] => by simp [as_chunks_3]
  | [a, b] => by simp [as_chunks_3]
  | a :: b :: c :: rest => by
    have ih := as_chunks_3_shape rest
    intro g hg
    simp [as_chunks_3] at hg
    rcases hg with hg | hg
    · exact ⟨a, b, c, hg⟩
    · exact ih g hg

lemma as_chunks_3_rem_len : ∀ l : List Nat,
    (as_chunks_3 l).2.length = l.length % 3
  | [] => by simp [as_chunks_3]
  | [a] => by simp [as_chunks_3]
  | [a, b] => by simp [as_chunks_3]
  | a :: b :: c :: rest => by
    have ih := as_chunks_3_rem_len rest
    simp [as_chunks_3, ih]
    omega

lemma as_chunks_4_flatten : ∀ l : List Nat,
    (as_chunks_4 l).1.flatten ++ (as_chunks_4 l).2 = l
  | [] => by simp [as_chunks_4]
  | [a] => by simp [as_chunks_4]
  | [a, b] => by simp [as_chunks_4]
  | [a, b, c] => by simp [as_chunks_4]
  | a :: b :: c :: d :: rest => by
    have ih := as_chunks_4_flatten rest
    simp [as_chunks_4, ih]

lemma as_chunks_4_rem_len : ∀ l : List Nat,
    (as_chunks_4 l).2.length = l.length % 4
  | [] => by simp [as_chunks_4]
  | [a] => by simp [as_chunks_4]
  | [a, b] => by simp [as_chunks_4]
  | [a, b, c] => by simp [as_chunks_4]
  | a :: b :: c :: d :: rest => by
    have ih := as_chunks_4_rem_len rest
    simp [as_chunks_4, ih]
    omega

lemma as_chunks_4_rem_lt : ∀ l : List Nat, (as_chunks_4 l).2.length < 4 := by
  intro l
  rw [as_chunks_4_rem_len]
  omega

lemma as_chunks_4_shape : ∀ l : List Nat, ∀ c ∈ (as_chunks_4 l).1,
    ∃ x y z w, c = [x, y, z, w]
  | [] => by simp [as_chunks_4]
  | [a] => by simp [as_chunks_4]
  | [a, b] => by simp [as_chunks_4]
  | [a, b, c] => by simp [as_chunks_4]
  | a :: b :: c :: d :: rest => by
    have ih := as_chunks_4_shape rest
    intro g hg
    simp [as_chunks_4] at hg
    rcases hg with hg | hg
    · exact ⟨a, b, c, d, hg⟩
    · exact ih g hg

/-- `as_chunks_4` recovers chunk list and remainder from their
concatenation. -/
lemma as_chunks_4_append : ∀ gs : List (List Nat), ∀ r : List Nat,
    (∀ g ∈ gs, ∃ a b c d, g = [a, b, c, d]) → r.length < 4 →
    as_chunks_4 (gs.flatten ++ r) = (gs, r) := by
  intro gs
  induction gs with
  | nil =>
    intro r _ hr
    rcases r with _ | ⟨a, _ | ⟨b, _ | ⟨c, _ | ⟨d, t⟩⟩⟩⟩ <;>
      simp [as_chunks_4] at hr ⊢
    omega
  | cons g gs ih =>
    intro r hshape hr
    obtain ⟨a, b, c, d, rfl⟩ := hshape g (List.mem_cons_self _ _)
    have := ih r (fun g hg => hshape g (List.mem_cons_of_mem _ hg)) hr
    simp [as_chunks_4, this]

/-! ## Trimming lemmas -/

lemma trim_append_replicate (l : List Nat) (k : Nat) :
    trim_trailing_padding (l ++ List.replicate k PAD_CHAR) =
      trim_trailing_padding l := by
  unfold trim_trailing_padding
  rw [List.reverse_append, List.reverse_replicate]
  congr 1
  induction k with
  | zero => simp
  | succ k ih => simpa [List.replicate_succ, List.dropWhile_cons] using ih

lemma trim_no_pad (l : List Nat) (h : ∀ x ∈ l, x ≠ PAD_CHAR) :
    trim_trailing_padding l = l := by
  unfold trim_trailing_padding
  rcases hrev : l.reverse with _ | ⟨a, t⟩
  · rw [List.reverse_eq_nil_iff] at hrev
    simp [hrev]
  · have ha : a ∈ l := by
      have h1 : a ∈ l.reverse := by rw [hrev]; exact List.mem_cons_self _ _
      simpa using h1
    have hne : ¬(a = PAD_CHAR) := h a ha
    rw [List.dropWhile_cons]
    simp [hne, ← hrev]

lemma trim_length_le (l : List Nat) :
    (trim_trailing_padding l).length ≤ l.length := by
  unfold trim_trailing_padding
  simpa using (List.dropWhile_sublist
    (l := l.reverse) (fun b => decide (b = PAD_CHAR))).length_le

/-! ## Error characterisation

Specification-side description of which error `decode_bytes` reports,
following the deterministic order the implementation uses. -/

/-- The error of an `Except` result, if any. -/
def except_error (x : Except DecodeError (List Nat)) : Option DecodeError :=
  match x with
  | Except.error e => some e
  | Except.ok _ => none

@[simp] lemma ok_bind {α β : Type} (a : α) (f : α → Except DecodeError β) :
    (Except.ok a >>= f : Except DecodeError β) = f a := rfl

@[simp] lemma error_bind {α β : Type} (e : DecodeError)
    (f : α → Except DecodeError β) :
    (Except.error e >>= f : Except DecodeError β) = Except.error e := rfl

/-- First option that is `some`. -/
def option_first (a b : Option DecodeError) : Option DecodeError :=
  match a with
  | some e => some e
  | none => b

/-- The first character of a group that is not in the alphabet. -/
def first_invalid_byte (l : List Nat) : Option Nat :=
  l.find? (fun x => (get_table_index x).isNone)

/-- The error produced by scanning the full 4-character groups in order:
a group containing the padding character yields `WrongPadding`; otherwise
its first non-alphabet character yields `InvalidByte`. -/
def scan_chunks_error : List (List Nat) → Option DecodeError
  | [] => none
  | c :: rest =>
    if PAD_CHAR ∈ c then some DecodeError.WrongPadding
    else
      match first_invalid_byte c with
      | some b => some (DecodeError.InvalidByte b)
      | none => scan_chunks_error rest

/-- The error produced by translating the final partial group. -/
def remainder_error (r : List Nat) : Option DecodeError :=
  match first_invalid_byte r with
  | some b => some (DecodeError.InvalidByte b)
  | none => none

/-- The first violation, in the implementation's deterministic order:
length and minimum-padding checks on the final partial group first, then
the per-group scan, then the final partial group's translation. -/
def first_decode_error (xs : List Nat) : Option DecodeError :=
  let core := trim_trailing_padding xs
  let trailing_len := xs.length - core.length
  let p := as_chunks_4 core
  match p.2.length with
  | 1 => some DecodeError.InputLength
  | 2 =>
    if trailing_len < 2 then some DecodeError.WrongPadding
    else option_first (scan_chunks_error p.1) (remainder_error p.2)
  | 3 =>
    if trailing_len < 1 then some DecodeError.WrongPadding
    else option_first (scan_chunks_error p.1) (remainder_error p.2)
  | _ => option_first (scan_chunks_error p.1) (remainder_error p.2)

/-- Scanning the full groups in order, the first group that is not made
entirely of alphabet characters contains the padding character. -/
def first_bad_chunk_has_pad : List (List Nat) → Bool
  | [] => false
  | c :: rest =>
    if PAD_CHAR ∈ c then true
    else if c.all (fun x => (get_table_index x).isSome) then
      first_bad_chunk_has_pad rest
    else false

lemma except_error_some (x : Except DecodeError (List Nat))
    (e : DecodeError) : x = Except.error e ↔ except_error x = some e := by
  cases x <;> simp [except_error]

lemma except_error_map (x : Except DecodeError (List Nat))
    (f : List Nat → List Nat) :
    except_error (do let r ← x; Except.ok (f r)) = except_error x := by
  cases x <;> simp [except_error, Except.bind]

lemma decode_chunk_error_eq (c0 c1 c2 c3 : Nat) :
    except_error (decode_chunk c0 c1 c2 c3) =
      (first_invalid_byte [c0, c1, c2, c3]).map DecodeError.InvalidByte := by
  rcases h0 : get_table_index c0 with _ | i0 <;>
    rcases h1 : get_table_index c1 with _ | i1 <;>
      rcases h2 : get_table_index c2 with _ | i2 <;>
        rcases h3 : get_table_index c3 with _ | i3 <;>
          simp [decode_chunk, get_index, h0, h1, h2, h3, first_invalid_byte,
            List.find?, except_error, Except.bind]

lemma decode_chunks_error_eq : ∀ cs : List (List Nat),
    (∀ c ∈ cs, ∃ a b c' d, c = [a, b, c', d]) →
    except_error (decode_chunks cs) = scan_chunks_error cs := by
  intro cs
  induction cs with
  | nil => intro _; simp [decode_chunks, scan_chunks_error, except_error]
  | cons c rest ih =>
    intro hshape
    obtain ⟨a, b, c', d, rfl⟩ := hshape _ (List.mem_cons_self _ _)
    have ihr := ih (fun g hg => hshape g (List.mem_cons_of_mem _ hg))
    by_cases hpad : PAD_CHAR ∈ [a, b, c', d]
    · simp [decode_chunks, scan_chunks_error, hpad, except_error]
    · rcases hfi : first_invalid_byte [a, b, c', d] with _ | bb
      · -- all four characters valid: the chunk decodes, error comes later
        have hce := decode_chunk_error_eq a b c' d
        rw [hfi] at hce
        simp only [Option.map_none'] at hce
        obtain ⟨v, hv⟩ : ∃ v, decode_chunk a b c' d = Except.ok v := by
          cases hx : decode_chunk a b c' d with
          | error e => rw [hx] at hce; simp [except_error] at hce
          | ok v => exact ⟨v, rfl⟩
        rw [decode_chunks, scan_chunks_error]
        simp only [hpad, if_false, hfi]
        rw [hv]
        cases hrest : decode_chunks rest with
        | error e =>
          rw [hrest] at ihr
          simp [except_error, Except.bind, hrest ▸ ihr, ← ihr, hrest]
        | ok w =>
          rw [hrest] at ihr
          simp [except_error, Except.bind, ← ihr, hrest]
      · have hce := decode_chunk_error_eq a b c' d
        rw [hfi] at hce
        simp only [Option.map_some'] at hce
        have : decode_chunk a b c' d =
            Except.error (DecodeError.InvalidByte bb) := by
          cases hx : decode_chunk a b c' d with
          | error e => rw [hx] at hce; simp [except_error] at hce; rw [hce]
          | ok v => rw [hx] at hce; simp [except_error] at hce
        rw [decode_chunks, scan_chunks_error]
        simp [hpad, hfi, this, except_error, Except.bind]

lemma decode_remainder_error_eq (r : List Nat) (h1 : r.length ≠ 1)
    (h4 : r.length < 4) :
    except_error (decode_remainder r) = remainder_error r := by
  rcases r with _ | ⟨r0, _ | ⟨r1, _ | ⟨r2, _ | ⟨r3, t⟩⟩⟩⟩
  · simp [decode_remainder, remainder_error, first_invalid_byte, except_error]
  · simp at h1
  · rcases h0 : get_table_index r0 with _ | i0 <;>
      rcases hh1 : get_table_index r1 with _ | i1 <;>
        simp [decode_remainder, get_index, h0, hh1, remainder_error,
          first_invalid_byte, List.find?, except_error]
  · rcases h0 : get_table_index r0 with _ | i0 <;>
      rcases hh1 : get_table_index r1 with _ | i1 <;>
        rcases hh2 : get_table_index r2 with _ | i2 <;>
          simp [decode_remainder, get_index, h0, hh1, hh2, remainder_error,
            first_invalid_byte, List.find?, except_error]
  · simp only [List.length_cons] at h4; omega

lemma decode_core_error_eq (cs : List (List Nat)) (r : List Nat)
    (hcs : ∀ c ∈ cs, ∃ a b c' d, c = [a, b, c', d]) (h1 : r.length ≠ 1)
    (h4 : r.length < 4) :
    except_error (decode_core cs r) =
      option_first (scan_chunks_error cs) (remainder_error r) := by
  have hc := decode_chunks_error_eq cs hcs
  have hr := decode_remainder_error_eq r h1 h4
  cases hx : decode_chunks cs with
  | error e =>
    rw [hx] at hc
    simp [decode_core, hx, except_error] at hc ⊢
    rw [← hc, option_first]
  | ok v =>
    rw [hx] at hc
    simp [except_error] at hc
    cases hy : decode_remainder r with
    | error e =>
      rw [hy] at hr
      simp [except_error] at hr
      simp [decode_core, hx, hy, except_error, ← hc, ← hr, option_first]
    | ok w =>
      rw [hy] at hr
      simp [except_error] at hr
      simp [decode_core, hx, hy, except_error, ← hc, ← hr, option_first]

/-- Which error `decode_bytes` returns, as a function of the input:
exactly the first violation in the implementation's deterministic order. -/
lemma decode_error_eq (xs : List Nat) :
    except_error (decode_bytes xs) = first_decode_error xs := by
  have hlt := as_chunks_4_rem_lt (trim_trailing_padding xs)
  have hshape := as_chunks_4_shape (trim_trailing_padding xs)
  rw [decode_bytes, first_decode_error]
  rcases hn : (as_chunks_4 (trim_trailing_padding xs)).2.length with
    _ | _ | _ | _ | n
  · simp only []
    exact decode_core_error_eq _ _ hshape (by omega) (by omega)
  · simp [except_error]
  · by_cases ht : xs.length - (trim_trailing_padding xs).length < 2 <;>
      simp only [ht, if_true, if_false]
    · simp [except_error]
    · exact decode_core_error_eq _ _ hshape (by omega) (by omega)
  · by_cases ht : xs.length - (trim_trailing_padding xs).length < 1 <;>
      simp only [ht, if_true, if_false]
    · simp [except_error]
    · exact decode_core_error_eq _ _ hshape (by omega) (by omega)
  · omega

instance : DecidableEq (Except DecodeError (List Nat)) := fun x y =>
  match x, y with
  | Except.ok a, Except.ok b =>
    if h : a = b then isTrue (by rw [h]) else isFalse (by simp [h])
  | Except.ok _, Except.error _ => isFalse (by simp)
  | Except.error _, Except.ok _ => isFalse (by simp)
  | Except.error a, Except.error b =>
    if h : a = b then isTrue (by rw [h]) else isFalse (by simp [h])

lemma option_first_eq_some_iff (a b : Option DecodeError) (e : DecodeError) :
    option_first a b = some e ↔ a = some e ∨ (a = none ∧ b = some e) := by
  cases a <;> simp [option_first]

lemma scan_chunks_error_ne_IL : ∀ cs : List (List Nat),
    scan_chunks_error cs ≠ some DecodeError.InputLength := by
  intro cs
  induction cs with
  | nil => simp [scan_chunks_error]
  | cons c rest ih =>
    by_cases hpad : PAD_CHAR ∈ c
    · simp [scan_chunks_error, hpad]
    · rcases hfi : first_invalid_byte c with _ | b <;>
        simp [scan_chunks_error, hpad, hfi, ih]

lemma remainder_error_ne_IL (r : List Nat) :
    remainder_error r ≠ some DecodeError.InputLength := by
  rcases hfi : first_invalid_byte r with _ | b <;> simp [remainder_error, hfi]

lemma remainder_error_ne_WP (r : List Nat) :
    remainder_error r ≠ some DecodeError.WrongPadding := by
  rcases hfi : first_invalid_byte r with _ | b <;> simp [remainder_error, hfi]

lemma scan_chunks_error_WP_iff : ∀ cs : List (List Nat),
    scan_chunks_error cs = some DecodeError.WrongPadding ↔
      first_bad_chunk_has_pad cs = true := by
  intro cs
  induction cs with
  | nil => simp [scan_chunks_error, first_bad_chunk_has_pad]
  | cons c rest ih =>
    by_cases hpad : PAD_CHAR ∈ c
    · simp [scan_chunks_error, first_bad_chunk_has_pad, hpad]
    · rcases hfi : first_invalid_byte c with _ | b
      · have hall : c.all (fun x => (get_table_index x).isSome) = true := by
          rw [List.all_eq_true]
          intro x hx
          have hx1 := List.find?_eq_none.mp hfi x hx
          simp only [Option.isNone_iff_eq_none, decide_eq_true_eq] at hx1
          rw [Option.isSome_iff_ne_none]
          simpa using hx1
        simp [scan_chunks_error, first_bad_chunk_has_pad, hpad, hfi, hall, ih]
      · have hmem := List.mem_of_find?_eq_some hfi
        have hprop := List.find?_some hfi
        have hall : c.all (fun x => (get_table_index x).isSome) = false := by
          rw [Bool.eq_false_iff]
          intro hcontra
          rw [List.all_eq_true] at hcontra
          have := hcontra b hmem
          simp at hprop this
          rw [hprop] at this
          simp at this
        simp [scan_chunks_error, first_bad_chunk_has_pad, hpad, hfi, hall]

/-- The final-partial-group padding requirement: a remainder of length 2
needs at least 2 trimmed `=`, a remainder of length 3 at least 1. -/
def padding_ok (xs : List Nat) : Prop :=
  ((trim_trailing_padding xs).length % 4 = 2 →
    2 ≤ xs.length - (trim_trailing_padding xs).length) ∧
  ((trim_trailing_padding xs).length % 4 = 3 →
    1 ≤ xs.length - (trim_trailing_padding xs).length)

instance (xs : List Nat) : Decidable (padding_ok xs) := by
  unfold padding_ok
  infer_instance

/-! ## Claim theorems: decoder error behaviour -/

/-- C2 (counterexample): the claim says the padding-in-middle error takes
precedence over the invalid-byte error when an earlier group contains an
invalid character and a later group contains an interior `=`.  On
`"a!cdab=c"` the first group `"a!cd"` contains the invalid `'!'` and the
second group `"ab=c"` contains an interior `=`, yet the decoder reports
`InvalidByte '!'`, not `WrongPadding`. -/
theorem c2_counterexample :
    (as_chunks_4 (trim_trailing_padding [97, 33, 99, 100, 97, 98, 61, 99])).1
        = [[97, 33, 99, 100], [97, 98, 61, 99]] ∧
      PAD_CHAR ∈ [97, 98, 61, 99] ∧
      PAD_CHAR ∉ [97, 33, 99, 100] ∧
      get_table_index 33 = none ∧
      decode_bytes [97, 33, 99, 100, 97, 98, 61, 99] =
        Except.error (DecodeError.InvalidByte 33) ∧
      decode_bytes [97, 33, 99, 100, 97, 98, 61, 99] ≠
        Except.error DecodeError.WrongPadding := by decide

/-- C2 (amended): on failure, `decode_bytes` returns the first violation in
the implementation's deterministic order — the length check and the
final-group minimum-padding check first, then each full 4-character group
in order (its padding-in-middle check, then its per-character translation),
then the remainder's per-character translation.  An `Except` result carries
no partial output on error. -/
theorem c2_first_error_order (xs : List Nat) :
    except_error (decode_bytes xs) = first_decode_error xs :=
  decode_error_eq xs

/-- C5: `decode_bytes` fails with `InputLength` exactly when, after
trimming all trailing `=`, the remaining length is `1 (mod 4)`, regardless
of character validity. -/
theorem c5_input_length_iff (xs : List Nat) :
    decode_bytes xs = Except.error DecodeError.InputLength ↔
      (trim_trailing_padding xs).length % 4 = 1 := by
  have hrem := as_chunks_4_rem_len (trim_trailing_padding xs)
  rw [except_error_some, decode_error_eq, first_decode_error]
  rcases hn : (as_chunks_4 (trim_trailing_padding xs)).2.length with
    _ | _ | _ | _ | n
  all_goals rw [hn] at hrem
  · simp [option_first_eq_some_iff, scan_chunks_error_ne_IL,
      remainder_error_ne_IL]
    omega
  · simp
    omega
  · by_cases ht : xs.length - (trim_trailing_padding xs).length < 2 <;>
      simp [ht, option_first_eq_some_iff, scan_chunks_error_ne_IL,
        remainder_error_ne_IL] <;>
      omega
  · by_cases ht : xs.length - (trim_trailing_padding xs).length < 1 <;>
      simp [ht, option_first_eq_some_iff, scan_chunks_error_ne_IL,
        remainder_error_ne_IL] <;>
      omega
  · simp [option_first_eq_some_iff, scan_chunks_error_ne_IL,
      remainder_error_ne_IL]
    omega

/-- C4 (counterexample): the claim says `decode_bytes` fails with
`WrongPadding` whenever, after trimming, some full 4-character group
contains `=`.  On `"a=bcd"` nothing is trimmed, the full group `"a=bc"`
contains `=`, yet the decoder reports `InputLength` (the remainder `"d"`
has length 1 and that check runs first). -/
theorem c4_counterexample :
    (as_chunks_4 (trim_trailing_padding [97, 61, 98, 99, 100])).1
        = [[97, 61, 98, 99]] ∧
      PAD_CHAR ∈ [97, 61, 98, 99] ∧
      decode_bytes [97, 61, 98, 99, 100] =
        Except.error DecodeError.InputLength ∧
      decode_bytes [97, 61, 98, 99, 100] ≠
        Except.error DecodeError.WrongPadding := by decide

/-- C4 (amended): `decode_bytes` fails with `WrongPadding` exactly when,
after trimming trailing `=`, the core length is not `1 (mod 4)` and either
the final partial group has fewer trimmed padding characters than required
(length 2 requires `trailing_len ≥ 2`, length 3 requires
`trailing_len ≥ 1`), or those padding requirements hold and, scanning the
full 4-character groups in order, the first group not made entirely of
alphabet characters contains `=`. -/
theorem c4_wrong_padding_iff (xs : List Nat) :
    decode_bytes xs = Except.error DecodeError.WrongPadding ↔
      ((trim_trailing_padding xs).length % 4 ≠ 1 ∧
        (((trim_trailing_padding xs).length % 4 = 2 ∧
            xs.length - (trim_trailing_padding xs).length < 2) ∨
          ((trim_trailing_padding xs).length % 4 = 3 ∧
            xs.length - (trim_trailing_padding xs).length < 1) ∨
          (padding_ok xs ∧
            first_bad_chunk_has_pad
              (as_chunks_4 (trim_trailing_padding xs)).1 = true))) := by
  have hrem := as_chunks_4_rem_len (trim_trailing_padding xs)
  rw [except_error_some, decode_error_eq, first_decode_error]
  rcases hn : (as_chunks_4 (trim_trailing_padding xs)).2.length with
    _ | _ | _ | _ | n
  all_goals rw [hn] at hrem
  · rw [option_first_eq_some_iff]
    simp only [scan_chunks_error_WP_iff]
    constructor
    · intro h
      rcases h with h | ⟨_, h⟩
      · exact ⟨by omega, Or.inr (Or.inr ⟨⟨by omega, by omega⟩, h⟩)⟩
      · exact absurd h (remainder_error_ne_WP _)
    · rintro ⟨_, h | h | ⟨_, h⟩⟩
      · omega
      · omega
      · exact Or.inl h
  · simp
    omega
  · by_cases ht : xs.length - (trim_trailing_padding xs).length < 2
    · rw [if_pos ht]
      constructor
      · intro _
        exact ⟨by omega, Or.inl ⟨by omega, ht⟩⟩
      · intro _
        rfl
    · rw [if_neg ht]
      rw [option_first_eq_some_iff]
      simp only [scan_chunks_error_WP_iff]
      constructor
      · intro h
        rcases h with h | ⟨_, h⟩
        · refine ⟨by omega, Or.inr (Or.inr ⟨⟨fun _ => by omega,
            fun h3 => by omega⟩, h⟩)⟩
        · exact absurd h (remainder_error_ne_WP _)
      · rintro ⟨_, h | h | ⟨_, h⟩⟩
        · omega
        · omega
        · exact Or.inl h
  · by_cases ht : xs.length - (trim_trailing_padding xs).length < 1
    · rw [if_pos ht]
      constructor
      · intro _
        exact ⟨by omega, Or.inr (Or.inl ⟨by omega, ht⟩)⟩
      · intro _
        rfl
    · rw [if_neg ht]
      rw [option_first_eq_some_iff]
      simp only [scan_chunks_error_WP_iff]
      constructor
      · intro h
        rcases h with h | ⟨_, h⟩
        · refine ⟨by omega, Or.inr (Or.inr ⟨⟨fun h2 => by omega,
            fun _ => by omega⟩, h⟩)⟩
        · exact absurd h (remainder_error_ne_WP _)
      · rintro ⟨_, h | h | ⟨_, h⟩⟩
        · omega
        · omega
        · exact Or.inl h
  · exact absurd hrem (by omega)

/-- C6: all trailing `=` are trimmed before any validation, so once an
input carries at least the canonical amount of trailing padding, appending
any number of further `=` characters leaves the decode result unchanged. -/
theorem c6_extra_padding_ignored (xs : List Nat) (k : Nat)
    (h : padding_ok xs) :
    decode_bytes (xs ++ List.replicate k PAD_CHAR) = decode_bytes xs := by
  have hcore := trim_append_replicate xs k
  have hlen := trim_length_le xs
  rw [decode_bytes, decode_bytes, hcore]
  generalize hgen : (as_chunks_4 (trim_trailing_padding xs)).2.length = m
  have hrem : m = (trim_trailing_padding xs).length % 4 := by
    rw [← hgen, as_chunks_4_rem_len]
  have hm4 : m < 4 := by omega
  interval_cases m
  · rfl
  · rfl
  · have h2 : 2 ≤ xs.length - (trim_trailing_padding xs).length :=
      h.1 (by omega)
    change
      (if (xs ++ List.replicate k PAD_CHAR).length -
            (trim_trailing_padding xs).length < 2 then
          Except.error DecodeError.WrongPadding
        else decode_core (as_chunks_4 (trim_trailing_padding xs)).1
          (as_chunks_4 (trim_trailing_padding xs)).2) =
      (if xs.length - (trim_trailing_padding xs).length < 2 then
          Except.error DecodeError.WrongPadding
        else decode_core (as_chunks_4 (trim_trailing_padding xs)).1
          (as_chunks_4 (trim_trailing_padding xs)).2)
    rw [if_neg (by simp [List.length_append]; omega), if_neg (by omega)]
  · have h3 : 1 ≤ xs.length - (trim_trailing_padding xs).length :=
      h.2 (by omega)
    change
      (if (xs ++ List.replicate k PAD_CHAR).length -
            (trim_trailing_padding xs).length < 1 then
          Except.error DecodeError.WrongPadding
        else decode_core (as_chunks_4 (trim_trailing_padding xs)).1
          (as_chunks_4 (trim_trailing_padding xs)).2) =
      (if xs.length - (trim_trailing_padding xs).length < 1 then
          Except.error DecodeError.WrongPadding
        else decode_core (as_chunks_4 (trim_trailing_padding xs)).1
          (as_chunks_4 (trim_trailing_padding xs)).2)
    rw [if_neg (by simp [List.length_append]; omega), if_neg (by omega)]

/-- C6 (witness): `decode("Zig==")` and `decode("Zig===")` agree. -/
theorem c6_extra_padding_ignored_witness :
    padding_ok [90, 105, 103, 61, 61] ∧
      decode_bytes [90, 105, 103, 61, 61, 61] =
        decode_bytes [90, 105, 103, 61, 61] :=
  ⟨by decide, c6_extra_padding_ignored [90, 105, 103, 61, 61] 1 (by decide)⟩

/-- C10: a string consisting solely of `=` characters decodes to the empty
byte sequence: trimming removes everything and the empty core passes every
check. -/
theorem c10_all_padding_ok (k : Nat) :
    decode_bytes (List.replicate k PAD_CHAR) = Except.ok [] := by
  have h : trim_trailing_padding (List.replicate k PAD_CHAR) = [] := by
    have h1 := trim_append_replicate [] k
    simpa [trim_trailing_padding] using h1
  rw [decode_bytes, h]
  rfl

/-! ## Encoder structure -/

lemma encode_3_bytes_len : ∀ g : List Nat, (encode_3_bytes g).length = 4 := by
  intro g
  rcases g with _ | ⟨a, _ | ⟨b, _ | ⟨c, t⟩⟩⟩ <;> simp [encode_3_bytes]

lemma as_chunks_3_chunks_len : ∀ l : List Nat,
    (as_chunks_3 l).1.length = l.length / 3
  | [] => by simp [as_chunks_3]
  | [a] => by simp [as_chunks_3]
  | [a, b] => by simp [as_chunks_3]
  | a :: b :: c :: rest => by
    have ih := as_chunks_3_chunks_len rest
    simp [as_chunks_3, ih]
    omega

/-- `encode_bytes` with the final table substitution pushed into the
pieces. -/
lemma encode_bytes_eq (l : List Nat) :
    encode_bytes l =
      ((as_chunks_3 l).1.map
          (fun g => (encode_3_bytes g).map to_char)).flatten ++
        (if (as_chunks_3 l).2.isEmpty then []
          else (encode_3_bytes (as_chunks_3 l).2).map to_char) := by
  rw [encode_bytes]
  simp only [List.map_append, List.map_flatten, List.map_map]
  congr 1
  split <;> simp

/-- The full-group sextets in div/mod normal form. -/
lemma encode_group_eq (b0 b1 b2 : Nat) (hb1 : b1 < 256) (hb2 : b2 < 256) :
    encode_3_bytes [b0, b1, b2] =
      [b0 / 4, 16 * (b0 % 4) + b1 / 16, 4 * (b1 % 16) + b2 / 64, b2 % 64] := by
  have e1 : ((b0 <<< 4) % 256) &&& 63 = 16 * (b0 % 4) := by
    rw [shl4, and63]; omega
  have e2 : ((b1 <<< 2) % 256) &&& 63 = 4 * (b1 % 16) := by
    rw [shl2, and63]; omega
  show [b0 >>> 2, (((b0 <<< 4) % 256) &&& 63) ||| (b1 >>> 4),
    (((b1 <<< 2) % 256) &&& 63) ||| (b2 >>> 6), b2 &&& 63] = _
  rw [e1, e2, shr2, shr4, shr6, and63,
    lor16 _ _ (by omega) (by omega), lor4 _ _ (by omega) (by omega)]

/-- The 2-byte partial-group sextets in div/mod normal form. -/
lemma encode_group2_eq (b0 b1 : Nat) (hb1 : b1 < 256) :
    encode_3_bytes [b0, b1] =
      [b0 / 4, 16 * (b0 % 4) + b1 / 16, 4 * (b1 % 16), N] := by
  have e1 : ((b0 <<< 4) % 256) &&& 63 = 16 * (b0 % 4) := by
    rw [shl4, and63]; omega
  have e2 : ((b1 <<< 2) % 256) &&& 63 = 4 * (b1 % 16) := by
    rw [shl2, and63]; omega
  show [b0 >>> 2, (((b0 <<< 4) % 256) &&& 63) ||| (b1 >>> 4),
    ((b1 <<< 2) % 256) &&& 63, N] = _
  rw [e1, e2, shr2, shr4, lor16 _ _ (by omega) (by omega)]

/-- The 1-byte partial-group sextets in div/mod normal form. -/
lemma encode_group1_eq (b0 : Nat) :
    encode_3_bytes [b0] = [b0 / 4, 16 * (b0 % 4), N, N] := by
  have e1 : ((b0 <<< 4) % 256) &&& 63 = 16 * (b0 % 4) := by
    rw [shl4, and63]; omega
  show [b0 >>> 2, ((b0 <<< 4) % 256) &&& 63, N, N] = _
  rw [e1, shr2]

/-! ## Repacking arithmetic: decoding inverts encoding bit-for-bit -/

lemma decode_pack0 (b0 y : Nat) (hb0 : b0 < 256) (hy : y < 16) :
    (((b0 / 4) <<< 2) % 256) ||| ((16 * (b0 % 4) + y) >>> 4) = b0 := by
  rw [shl2, shr4, Nat.mod_eq_of_lt (show b0 / 4 * 4 < 256 by omega),
    (show (16 * (b0 % 4) + y) / 16 = b0 % 4 by omega),
    lor4 _ _ (by omega) (by omega)]
  omega

lemma decode_pack1 (b0 b1 x : Nat) (hb1 : b1 < 256) (hx : x < 4) :
    (((16 * (b0 % 4) + b1 / 16) <<< 4) % 256) |||
      ((4 * (b1 % 16) + x) >>> 2) = b1 := by
  rw [shl4, shr2,
    (show (16 * (b0 % 4) + b1 / 16) * 16 % 256 = 16 * (b1 / 16) by omega),
    (show (4 * (b1 % 16) + x) / 4 = b1 % 16 by omega),
    lor16 _ _ (by omega) (by omega)]
  omega

lemma decode_pack2 (b1 b2 : Nat) (hb2 : b2 < 256) :
    (((4 * (b1 % 16) + b2 / 64) <<< 6) % 256) ||| (b2 % 64) = b2 := by
  rw [shl6,
    (show (4 * (b1 % 16) + b2 / 64) * 64 % 256 = 64 * (b2 / 64) by omega),
    lor64 _ _ (by omega) (by omega)]
  omega

/-! ## Encoded groups through the table -/

/-- A full 3-byte group encodes to four alphabet characters that decode
back to the original bytes. -/
lemma egroup_full (b0 b1 b2 : Nat) (h0 : b0 < 256) (h1 : b1 < 256)
    (h2 : b2 < 256) :
    ∃ t0 t1 t2 t3,
      (encode_3_bytes [b0, b1, b2]).map to_char = [t0, t1, t2, t3] ∧
        t0 ≠ PAD_CHAR ∧ t1 ≠ PAD_CHAR ∧ t2 ≠ PAD_CHAR ∧ t3 ≠ PAD_CHAR ∧
        decode_chunk t0 t1 t2 t3 = Except.ok [b0, b1, b2] := by
  rw [encode_group_eq b0 b1 b2 h1 h2]
  have hs0 := tbl_spec (b0 / 4) (by omega)
  have hs1 := tbl_spec (16 * (b0 % 4) + b1 / 16) (by omega)
  have hs2 := tbl_spec (4 * (b1 % 16) + b2 / 64) (by omega)
  have hs3 := tbl_spec (b2 % 64) (by omega)
  refine ⟨to_char (b0 / 4), to_char (16 * (b0 % 4) + b1 / 16),
    to_char (4 * (b1 % 16) + b2 / 64), to_char (b2 % 64),
    by simp, hs0.1, hs1.1, hs2.1, hs3.1, ?_⟩
  have e0 := decode_pack0 b0 (b1 / 16) h0 (by omega)
  have e1 := decode_pack1 b0 b1 (b2 / 64) h1 (by omega)
  have e2 := decode_pack2 b1 b2 h2
  simp [decode_chunk, get_index, hs0.2.2, hs1.2.2, hs2.2.2, hs3.2.2,
    e0, e1, e2]

/-- A final 1-byte group encodes to two alphabet characters and two
padding characters; the two characters decode back to the byte. -/
lemma egroup_rem1 (b0 : Nat) (h0 : b0 < 256) :
    ∃ t0 t1,
      (encode_3_bytes [b0]).map to_char = [t0, t1, PAD_CHAR, PAD_CHAR] ∧
        t0 ≠ PAD_CHAR ∧ t1 ≠ PAD_CHAR ∧
        (get_table_index t0).isSome ∧ (get_table_index t1).isSome ∧
        decode_remainder [t0, t1] = Except.ok [b0] := by
  rw [encode_group1_eq b0]
  have hs0 := tbl_spec (b0 / 4) (by omega)
  have hs1 := tbl_spec (16 * (b0 % 4)) (by omega)
  refine ⟨to_char (b0 / 4), to_char (16 * (b0 % 4)),
    by simp [tbl_pad], hs0.1, hs1.1,
    by rw [hs0.2.2]; simp, by rw [hs1.2.2]; simp, ?_⟩
  have e0 := decode_pack0 b0 0 h0 (by omega)
  simp only [Nat.add_zero] at e0
  simp [decode_remainder, get_index, hs0.2.2, hs1.2.2, e0]

/-- A final 2-byte group encodes to three alphabet characters and one
padding character; the three characters decode back to the two bytes. -/
lemma egroup_rem2 (b0 b1 : Nat) (h0 : b0 < 256) (h1 : b1 < 256) :
    ∃ t0 t1 t2,
      (encode_3_bytes [b0, b1]).map to_char = [t0, t1, t2, PAD_CHAR] ∧
        t0 ≠ PAD_CHAR ∧ t1 ≠ PAD_CHAR ∧ t2 ≠ PAD_CHAR ∧
        (get_table_index t0).isSome ∧ (get_table_index t1).isSome ∧
        (get_table_index t2).isSome ∧
        decode_remainder [t0, t1, t2] = Except.ok [b0, b1] := by
  rw [encode_group2_eq b0 b1 h1]
  have hs0 := tbl_spec (b0 / 4) (by omega)
  have hs1 := tbl_spec (16 * (b0 % 4) + b1 / 16) (by omega)
  have hs2 := tbl_spec (4 * (b1 % 16)) (by omega)
  refine ⟨to_char (b0 / 4), to_char (16 * (b0 % 4) + b1 / 16),
    to_char (4 * (b1 % 16)), by simp [tbl_pad], hs0.1, hs1.1, hs2.1,
    by rw [hs0.2.2]; simp, by rw [hs1.2.2]; simp,
    by rw [hs2.2.2]; simp, ?_⟩
  have e0 := decode_pack0 b0 (b1 / 16) h0 (by omega)
  have e1 := decode_pack1 b0 b1 0 h1 (by omega)
  simp only [Nat.add_zero] at e1
  simp [decode_remainder, get_index, hs0.2.2, hs1.2.2, hs2.2.2, e0, e1]

/-- Hypothesis bundle: every group is 3 bytes. -/
def good_groups (gs : List (List Nat)) : Prop :=
  ∀ g ∈ gs, ∃ x y z, g = [x, y, z] ∧ x < 256 ∧ y < 256 ∧ z < 256

/-- All characters of the encoded full groups are alphabet characters. -/
lemma encoded_chunks_alphabet (gs : List (List Nat)) (h : good_groups gs) :
    ∀ x ∈ (gs.map (fun g => (encode_3_bytes g).map to_char)).flatten,
      get_table_index x ≠ none := by
  intro x hx
  rw [List.mem_flatten] at hx
  obtain ⟨l, hl, hxl⟩ := hx
  rw [List.mem_map] at hl
  obtain ⟨g, hg, rfl⟩ := hl
  obtain ⟨a, b, c, rfl, ha, hb, hc⟩ := h g hg
  rw [encode_group_eq a b c hb hc] at hxl
  simp only [List.map_cons, List.map_nil, List.mem_cons,
    List.not_mem_nil, or_false] at hxl
  rcases hxl with rfl | rfl | rfl | rfl
  · rw [(tbl_spec (a / 4) (by omega)).2.2]; simp
  · rw [(tbl_spec (16 * (a % 4) + b / 16) (by omega)).2.2]; simp
  · rw [(tbl_spec (4 * (b % 16) + c / 64) (by omega)).2.2]; simp
  · rw [(tbl_spec (c % 64) (by omega)).2.2]; simp

/-- Encoded full groups are 4-character chunks. -/
lemma encoded_chunks_shape (gs : List (List Nat)) (h : good_groups gs) :
    ∀ c ∈ gs.map (fun g => (encode_3_bytes g).map to_char),
      ∃ x y z w, c = [x, y, z, w] := by
  intro c hc
  rw [List.mem_map] at hc
  obtain ⟨g, hg, rfl⟩ := hc
  obtain ⟨a, b, c', rfl, ha, hb, hc'⟩ := h g hg
  obtain ⟨t0, t1, t2, t3, hmap, _⟩ := egroup_full a b c' ha hb hc'
  exact ⟨t0, t1, t2, t3, hmap⟩

/-- Decoding the encoded full groups recovers their concatenation. -/
lemma decode_encode_chunks : ∀ gs : List (List Nat), good_groups gs →
    decode_chunks (gs.map (fun g => (encode_3_bytes g).map to_char)) =
      Except.ok gs.flatten := by
  intro gs
  induction gs with
  | nil => intro _; simp [decode_chunks]
  | cons g rest ih =>
    intro h
    obtain ⟨a, b, c, rfl, ha, hb, hc⟩ := h g (List.mem_cons_self _ _)
    have ihr := ih (fun g hg => h g (List.mem_cons_of_mem _ hg))
    obtain ⟨t0, t1, t2, t3, hmap, hn0, hn1, hn2, hn3, hdec⟩ :=
      egroup_full a b c ha hb hc
    simp only [List.map_cons, hmap]
    rw [decode_chunks]
    have hpad : PAD_CHAR ∉ [t0, t1, t2, t3] := by
      simp [hn0, hn1, hn2, hn3, Ne.symm hn0, Ne.symm hn1, Ne.symm hn2,
        Ne.symm hn3]
    simp only [hpad, if_false]
    rw [hdec, ihr]
    simp

lemma as_chunks_3_good (b : List Nat) (h : ∀ x ∈ b, x < 256) :
    good_groups (as_chunks_3 b).1 := by
  intro g hg
  obtain ⟨x, y, z, rfl⟩ := as_chunks_3_shape b g hg
  have hmem : ∀ w ∈ [x, y, z], w ∈ b := by
    intro w hw
    have h1 : w ∈ (as_chunks_3 b).1.flatten := List.mem_flatten.mpr ⟨_, hg, hw⟩
    have h2 := as_chunks_3_flatten b
    rw [← h2]
    exact List.mem_append.mpr (Or.inl h1)
  exact ⟨x, y, z, rfl, h x (hmem x (by simp)), h y (hmem y (by simp)),
    h z (hmem z (by simp))⟩

lemma as_chunks_3_rem_mem (b : List Nat) :
    ∀ x ∈ (as_chunks_3 b).2, x ∈ b := by
  intro x hx
  have h2 := as_chunks_3_flatten b
  rw [← h2]
  exact List.mem_append.mpr (Or.inr hx)

lemma flatten_map_egroup_len (gs : List (List Nat)) :
    ((gs.map (fun g => (encode_3_bytes g).map to_char)).flatten).length =
      4 * gs.length := by
  induction gs with
  | nil => simp
  | cons g rest ih =>
    simp only [List.map_cons, List.flatten_cons, List.length_append,
      List.length_map, encode_3_bytes_len, List.length_cons, ih]
    omega

lemma pad_not_alphabet : get_table_index PAD_CHAR = none := by decide

/-- Characters of the encoded full groups are never the padding
character. -/
lemma encoded_chunks_no_pad (gs : List (List Nat)) (h : good_groups gs) :
    ∀ x ∈ (gs.map (fun g => (encode_3_bytes g).map to_char)).flatten,
      x ≠ PAD_CHAR := by
  intro x hx hpad
  have := encoded_chunks_alphabet gs h x hx
  rw [hpad, pad_not_alphabet] at this
  exact this rfl

/-- C3: the encoded output length is `4 * ceil(n/3)` for an `n`-byte input
(in `Nat` arithmetic, `ceil(n/3) = (n+2)/3`); in particular the empty input
encodes to the empty output. -/
theorem c3_encode_length :
    (∀ b : List Nat, (encode_bytes b).length = 4 * ((b.length + 2) / 3)) ∧
      encode_bytes [] = [] := by
  constructor
  · intro b
    have hchunks := as_chunks_3_chunks_len b
    have hrem := as_chunks_3_rem_len b
    rw [encode_bytes_eq, List.length_append, flatten_map_egroup_len]
    by_cases he : (as_chunks_3 b).2.isEmpty = true
    · rw [if_pos he]
      rw [List.isEmpty_iff_length_eq_zero] at he
      simp only [List.length_nil]
      omega
    · rw [if_neg he]
      rw [List.isEmpty_iff_length_eq_zero] at he
      simp only [List.length_map, encode_3_bytes_len]
      omega
  · rfl

/-- Number of trailing padding characters as a function of input length. -/
def pad_count (n : Nat) : Nat :=
  if n % 3 = 0 then 0 else if n % 3 = 1 then 2 else 1

/-- C8: for byte input, the encoded output is alphabet characters followed
by exactly `pad_count` trailing `=` (0 for input length `0 mod 3`, 2 for
`1 mod 3`, 1 for `2 mod 3`); `=` never occurs in a non-final position. -/
theorem c8_encoded_shape (b : List Nat) (h : ∀ x ∈ b, x < 256) :
    ∃ body,
      encode_bytes b = body ++ List.replicate (pad_count b.length) PAD_CHAR ∧
        ∀ c ∈ body, (get_table_index c).isSome := by
  have hgood := as_chunks_3_good b h
  have hrem := as_chunks_3_rem_len b
  have halpha := encoded_chunks_alphabet _ hgood
  rw [encode_bytes_eq]
  rcases hr : (as_chunks_3 b).2 with _ | ⟨b0, _ | ⟨b1, _ | ⟨b2, t⟩⟩⟩
  · rw [hr] at hrem
    simp only [List.length_nil] at hrem
    have hpc : pad_count b.length = 0 := by rw [pad_count, if_pos (by omega)]
    refine ⟨((as_chunks_3 b).1.map
      (fun g => (encode_3_bytes g).map to_char)).flatten, ?_, ?_⟩
    · simp [hpc]
    · intro c hc
      rw [Option.isSome_iff_ne_none]
      exact halpha c hc
  · rw [hr] at hrem
    simp only [List.length_cons, List.length_nil] at hrem
    have hb0 : b0 < 256 := h b0 (as_chunks_3_rem_mem b b0 (by rw [hr]; simp))
    obtain ⟨t0, t1, hmap, hn0, hn1, hiso0, hiso1, _⟩ := egroup_rem1 b0 hb0
    have hpc : pad_count b.length = 2 := by
      rw [pad_count, if_neg (by omega), if_pos (by omega)]
    refine ⟨((as_chunks_3 b).1.map
      (fun g => (encode_3_bytes g).map to_char)).flatten ++ [t0, t1], ?_, ?_⟩
    · rw [hpc]
      simp [hmap, List.append_assoc]
    · intro c hc
      rcases List.mem_append.mp hc with hc | hc
      · rw [Option.isSome_iff_ne_none]
        exact halpha c hc
      · simp only [List.mem_cons, List.not_mem_nil, or_false] at hc
        rcases hc with rfl | rfl
        · exact hiso0
        · exact hiso1
  · rw [hr] at hrem
    simp only [List.length_cons, List.length_nil] at hrem
    have hb0 : b0 < 256 := h b0 (as_chunks_3_rem_mem b b0 (by rw [hr]; simp))
    have hb1 : b1 < 256 := h b1 (as_chunks_3_rem_mem b b1 (by rw [hr]; simp))
    obtain ⟨t0, t1, t2, hmap, hn0, hn1, hn2, hiso0, hiso1, hiso2, _⟩ :=
      egroup_rem2 b0 b1 hb0 hb1
    have hpc : pad_count b.length = 1 := by
      rw [pad_count, if_neg (by omega), if_neg (by omega)]
    refine ⟨((as_chunks_3 b).1.map
      (fun g => (encode_3_bytes g).map to_char)).flatten ++ [t0, t1, t2],
      ?_, ?_⟩
    · rw [hpc]
      simp [hmap, List.append_assoc]
    · intro c hc
      rcases List.mem_append.mp hc with hc | hc
      · rw [Option.isSome_iff_ne_none]
        exact halpha c hc
      · simp only [List.mem_cons, List.not_mem_nil, or_false] at hc
        rcases hc with rfl | rfl | rfl
        · exact hiso0
        · exact hiso1
        · exact hiso2
  · rw [hr] at hrem
    simp only [List.length_cons] at hrem
    omega

/-- C8 (witness): instantiated at the single byte `"f"`. -/
theorem c8_encoded_shape_witness :
    ∃ body,
      encode_bytes [102] =
        body ++ List.replicate (pad_count [102].length) PAD_CHAR ∧
        ∀ c ∈ body, (get_table_index c).isSome :=
  c8_encoded_shape [102] (by decide)

/-- C1: decoding the encoding of any byte sequence succeeds and returns
exactly the original bytes. -/
theorem c1_round_trip (b : List Nat) (h : ∀ x ∈ b, x < 256) :
    decode_bytes (encode_bytes b) = Except.ok b := by
  have hflat := as_chunks_3_flatten b
  have hgood := as_chunks_3_good b h
  have hrem := as_chunks_3_rem_len b
  have halpha := encoded_chunks_alphabet _ hgood
  have hnopad := encoded_chunks_no_pad _ hgood
  have hshape4 := encoded_chunks_shape _ hgood
  have hdec := decode_encode_chunks _ hgood
  rw [encode_bytes_eq]
  rcases hr : (as_chunks_3 b).2 with _ | ⟨b0, _ | ⟨b1, _ | ⟨b2, t⟩⟩⟩
  · -- no remainder
    rw [hr] at hflat
    simp only [List.isEmpty_nil, if_true, List.append_nil] at hflat ⊢
    have hcore : trim_trailing_padding (((as_chunks_3 b).1.map
        (fun g => (encode_3_bytes g).map to_char)).flatten) = _ :=
      trim_no_pad _ hnopad
    have hchunks4 := as_chunks_4_append
      ((as_chunks_3 b).1.map (fun g => (encode_3_bytes g).map to_char)) []
      hshape4 (by simp)
    rw [List.append_nil] at hchunks4
    rw [decode_bytes, hcore, hchunks4]
    show decode_core
      ((as_chunks_3 b).1.map (fun g => (encode_3_bytes g).map to_char)) []
      = Except.ok b
    rw [decode_core, hdec]
    simp [decode_remainder, hflat]
  · -- remainder [b0]
    rw [hr] at hflat hrem
    have hb0 : b0 < 256 := h b0 (as_chunks_3_rem_mem b b0 (by rw [hr]; simp))
    obtain ⟨t0, t1, hmap, hn0, hn1, _, _, hdr⟩ := egroup_rem1 b0 hb0
    simp only [hr, List.isEmpty_cons, Bool.false_eq_true, if_false, hmap]
    have henc : ((as_chunks_3 b).1.map
          (fun g => (encode_3_bytes g).map to_char)).flatten ++
          [t0, t1, PAD_CHAR, PAD_CHAR] =
        (((as_chunks_3 b).1.map
          (fun g => (encode_3_bytes g).map to_char)).flatten ++ [t0, t1]) ++
          List.replicate 2 PAD_CHAR := by
      simp [List.append_assoc]
    rw [henc]
    have hnopad2 : ∀ x ∈ ((as_chunks_3 b).1.map
        (fun g => (encode_3_bytes g).map to_char)).flatten ++ [t0, t1],
        x ≠ PAD_CHAR := by
      intro x hx
      rcases List.mem_append.mp hx with hx | hx
      · exact hnopad x hx
      · simp only [List.mem_cons, List.not_mem_nil, or_false] at hx
        rcases hx with rfl | rfl
        · exact hn0
        · exact hn1
    have hcore : trim_trailing_padding ((((as_chunks_3 b).1.map
          (fun g => (encode_3_bytes g).map to_char)).flatten ++ [t0, t1]) ++
          List.replicate 2 PAD_CHAR) =
        ((as_chunks_3 b).1.map
          (fun g => (encode_3_bytes g).map to_char)).flatten ++ [t0, t1] := by
      rw [trim_append_replicate, trim_no_pad _ hnopad2]
    have hchunks4 := as_chunks_4_append
      ((as_chunks_3 b).1.map (fun g => (encode_3_bytes g).map to_char))
      [t0, t1] hshape4 (by simp)
    rw [decode_bytes, hcore, hchunks4]
    have htrail : ((((as_chunks_3 b).1.map
          (fun g => (encode_3_bytes g).map to_char)).flatten ++ [t0, t1]) ++
          List.replicate 2 PAD_CHAR).length -
        (((as_chunks_3 b).1.map
          (fun g => (encode_3_bytes g).map to_char)).flatten ++
          [t0, t1]).length = 2 := by
      simp
    rw [htrail]
    show (if 2 < 2 then Except.error DecodeError.WrongPadding
      else decode_core
        ((as_chunks_3 b).1.map (fun g => (encode_3_bytes g).map to_char))
        [t0, t1]) = Except.ok b
    rw [if_neg (by omega), decode_core, hdec]
    simp only [ok_bind]
    rw [hdr]
    simp only [ok_bind]
    rw [hflat]
  · -- remainder [b0, b1]
    rw [hr] at hflat hrem
    have hb0 : b0 < 256 := h b0 (as_chunks_3_rem_mem b b0 (by rw [hr]; simp))
    have hb1 : b1 < 256 := h b1 (as_chunks_3_rem_mem b b1 (by rw [hr]; simp))
    obtain ⟨t0, t1, t2, hmap, hn0, hn1, hn2, _, _, _, hdr⟩ :=
      egroup_rem2 b0 b1 hb0 hb1
    simp only [hr, List.isEmpty_cons, Bool.false_eq_true, if_false, hmap]
    have henc : ((as_chunks_3 b).1.map
          (fun g => (encode_3_bytes g).map to_char)).flatten ++
          [t0, t1, t2, PAD_CHAR] =
        (((as_chunks_3 b).1.map
          (fun g => (encode_3_bytes g).map to_char)).flatten ++
          [t0, t1, t2]) ++ List.replicate 1 PAD_CHAR := by
      simp [List.append_assoc]
    rw [henc]
    have hnopad2 : ∀ x ∈ ((as_chunks_3 b).1.map
        (fun g => (encode_3_bytes g).map to_char)).flatten ++ [t0, t1, t2],
        x ≠ PAD_CHAR := by
      intro x hx
      rcases List.mem_append.mp hx with hx | hx
      · exact hnopad x hx
      · simp only [List.mem_cons, List.not_mem_nil, or_false] at hx
        rcases hx with rfl | rfl | rfl
        · exact hn0
        · exact hn1
        · exact hn2
    have hcore : trim_trailing_padding ((((as_chunks_3 b).1.map
          (fun g => (encode_3_bytes g).map to_char)).flatten ++
          [t0, t1, t2]) ++ List.replicate 1 PAD_CHAR) =
        ((as_chunks_3 b).1.map
          (fun g => (encode_3_bytes g).map to_char)).flatten ++
          [t0, t1, t2] := by
      rw [trim_append_replicate, trim_no_pad _ hnopad2]
    have hchunks4 := as_chunks_4_append
      ((as_chunks_3 b).1.map (fun g => (encode_3_bytes g).map to_char))
      [t0, t1, t2] hshape4 (by simp)
    rw [decode_bytes, hcore, hchunks4]
    have htrail : ((((as_chunks_3 b).1.map
          (fun g => (encode_3_bytes g).map to_char)).flatten ++
          [t0, t1, t2]) ++ List.replicate 1 PAD_CHAR).length -
        (((as_chunks_3 b).1.map
          (fun g => (encode_3_bytes g).map to_char)).flatten ++
          [t0, t1, t2]).length = 1 := by
      simp
    rw [htrail]
    show (if 1 < 1 then Except.error DecodeError.WrongPadding
      else decode_core
        ((as_chunks_3 b).1.map (fun g => (encode_3_bytes g).map to_char))
        [t0, t1, t2]) = Except.ok b
    rw [if_neg (by omega), decode_core, hdec]
    simp only [ok_bind]
    rw [hdr]
    simp only [ok_bind]
    rw [hflat]
  · rw [hr] at hrem
    simp only [List.length_cons] at hrem
    omega

/-- C1 (witness): round trip at the concrete bytes `[102, 255, 0]`. -/
theorem c1_round_trip_witness :
    decode_bytes (encode_bytes [102, 255, 0]) = Except.ok [102, 255, 0] :=
  c1_round_trip [102, 255, 0] (by decide)

/-! ## Alphabet contract and string-level decode -/

/-- The inverse alphabet mapping exactly as the specification words it
(§3/§4.1): `A`–`Z` to 0–25, `a`–`z` to 26–51, `0`–`9` to 52–61, `+` to 62,
`/` to 63, `none` for everything else. -/
def spec_char_to_index (c : Nat) : Option Nat :=
  if 65 ≤ c ∧ c ≤ 90 then some (c - 65)
  else if 97 ≤ c ∧ c ≤ 122 then some (c - 97 + 26)
  else if 48 ≤ c ∧ c ≤ 57 then some (c - 48 + 52)
  else if c = 43 then some 62
  else if c = 47 then some 63
  else none

set_option maxRecDepth 8192 in
/-- C7: `get_table_index` agrees with the specification's inverse alphabet
mapping on every byte: the 64 alphabet characters get their sextet, and
every other byte (including `=`, control characters and non-ASCII bytes)
gets `none`. -/
theorem c7_char_to_index (c : Nat) (h : c < 256) :
    get_table_index c = spec_char_to_index c := by
  revert h
  revert c
  decide

/-- C7 (witness): instantiated at `'+'` (byte 43), which maps to 62. -/
theorem c7_char_to_index_witness :
    get_table_index 43 = spec_char_to_index 43 ∧ get_table_index 43 = some 62 :=
  ⟨c7_char_to_index 43 (by decide), by decide⟩

/-- C9: the string-level decode fails exactly when the byte-level decode
fails, with the same error; on success it applies the lossy UTF-8
interpretation, which substitutes the replacement character `U+FFFD`
(`65533`) for invalid byte sequences instead of failing: shown on the
stray byte `FF`, the overlong form `E0 80 80`, the UTF-16 surrogate
`ED A0 80`, the out-of-range form `F4 90 80 80`, and the truncated
`E0 A0` (a single replacement, per the maximal-subpart rule). -/
theorem c9_decode_string_layers :
    (∀ (xs : List Nat) (e : DecodeError),
        decode_string xs = Except.error e ↔ decode_bytes xs = Except.error e) ∧
      (∀ (xs : List Nat) (v : List Nat), decode_bytes xs = Except.ok v →
        decode_string xs = Except.ok (from_utf8_lossy v)) ∧
      from_utf8_lossy [102, 255, 111] = [102, 65533, 111] ∧
      from_utf8_lossy [224, 128, 128] = [65533, 65533, 65533] ∧
      from_utf8_lossy [237, 160, 128] = [65533, 65533, 65533] ∧
      from_utf8_lossy [244, 144, 128, 128] = [65533, 65533, 65533, 65533] ∧
      from_utf8_lossy [224, 160] = [65533] := by
  refine ⟨?_, ?_, ?_⟩
  · intro xs e
    cases hx : decode_bytes xs with
    | error e' => simp [decode_string, hx]
    | ok v => simp [decode_string, hx]
  · intro xs v hx
    simp [decode_string, hx]
  · decide

/-- C9 (witness): the success layer applied to `decode("YQ==")`. -/
theorem c9_decode_string_layers_witness :
    decode_string [89, 81, 61, 61] = Except.ok (from_utf8_lossy [97]) :=
  c9_decode_string_layers.2.1 [89, 81, 61, 61] [97] (by decide)

end Base64
